import Mathlib

/-!
Verification of the range checker subsystem (`src/processor/src/range/mod.rs`).

The range checker accumulates 16-bit lookup multiplicities in an ordered map
(`BTreeMap<u16, usize>`) and materializes a 4-column execution trace
(`t`, `s0`, `s1`, `v`).  We embed the map as a sorted association list of
`(value, count)` pairs, field elements as natural numbers (every value written
is at most 65535, far below the field modulus, and the spec requires the
conversion to be value-preserving), and the uninitialized trace memory as
lists of `Option ℕ` where `none` marks a cell that `into_trace` never wrote.
-/

set_option maxRecDepth 40000

namespace RangeCheck

/-- `div_rem` from the source: quotient and remainder. -/
def div_rem (value divisor : ℕ) : ℕ × ℕ := (value / divisor, value % divisor)

/-- `lookups_to_rows`: number of trace rows needed for `num_lookups` lookups of
one value (one row even for zero lookups; otherwise greedy 4/2/1 packing). -/
def lookups_to_rows (num_lookups : ℕ) : ℕ :=
  if num_lookups = 0 then 1
  else
    let p4 := div_rem num_lookups 4
    let p2 := div_rem p4.2 2
    p4.1 + p2.1 + p2.2

/-- `get_num_8bit_rows`: total rows needed for an 8-bit lookup table. -/
def get_num_8bit_rows (lookups : List ℕ) : ℕ :=
  (lookups.map lookups_to_rows).sum

/-- The checker's state: the `lookups: BTreeMap<u16, usize>` map, embedded as
an association list sorted by strictly increasing key, which is exactly the
order the `BTreeMap` iterates in. -/
abbrev Lookups := List (ℕ × ℕ)

/-- `RangeChecker::new()`: lookup map seeded with entries for 0 and `u16::MAX`. -/
def newChecker : Lookups := [(0, 0), (65535, 0)]

/-- Sorted-map insertion realizing
`lookups.entry(value).and_modify(|v| *v += 1).or_insert(1)`. -/
def insertLookup (value : ℕ) : Lookups → Lookups
  | [] => [(value, 1)]
  | (k, c) :: rest =>
    if value < k then (value, 1) :: (k, c) :: rest
    else if value = k then (k, c + 1) :: rest
    else (k, c) :: insertLookup value rest

/-- `RangeChecker::add_value`. -/
def add_value (rc : Lookups) (value : ℕ) : Lookups := insertLookup value rc

/-- One iteration of the loop body of `build_8bit_lookup`, processing entry
`(value, num_lookups)` with previous key `prev` against the 256-slot histogram
`result` and the running 16-bit row count. -/
def build8Step (prev : ℕ) (value num_lookups : ℕ) (result : List ℕ)
    (num_16bit_rows : ℕ) : List ℕ × ℕ :=
  let num_rows := lookups_to_rows num_lookups
  let result := result.set 0 (result.getD 0 0 + (num_rows - 1))
  let num_16bit_rows := num_16bit_rows + num_rows
  let delta := value - prev
  let dqr := div_rem delta 255
  let result :=
    if dqr.1 ≠ 0 then result.set 255 (result.getD 255 0 + dqr.1) else result
  let num_16bit_rows :=
    if dqr.1 ≠ 0 then
      num_16bit_rows + (if dqr.2 = 0 then dqr.1 - 1 else dqr.1)
    else num_16bit_rows
  let result :=
    if dqr.2 ≠ 0 then result.set dqr.2 (result.getD dqr.2 0 + 1) else result
  (result, num_16bit_rows)

/-- The loop of `build_8bit_lookup` over the (sorted) lookup entries. -/
def build8Loop (prev : ℕ) (l : Lookups) (result : List ℕ)
    (num_16bit_rows : ℕ) : List ℕ × ℕ :=
  match l with
  | [] => (result, num_16bit_rows)
  | (value, num_lookups) :: rest =>
    let s := build8Step prev value num_lookups result num_16bit_rows
    build8Loop value rest s.1 s.2

/-- `RangeChecker::build_8bit_lookup`: the 8-bit histogram (256 slots,
initially zero) and the number of 16-bit rows. -/
def build_8bit_lookup (rc : Lookups) : List ℕ × ℕ :=
  build8Loop 0 rc (List.replicate 256 0) 0

/-- `RangeChecker::trace_len`. -/
def trace_len (rc : Lookups) : ℕ :=
  let b := build_8bit_lookup rc
  get_num_8bit_rows b.1 + b.2

/-- The rows `(s0, s1, v)` appended by `write_value` for `num_lookups`
lookups of `value`: 4-lookup rows `(1,1)`, then 2-lookup rows `(0,1)`, then
1-lookup rows `(1,0)`; a single `(0,0)` row when there are no lookups. -/
def write_value_rows (num_lookups value : ℕ) : List (ℕ × ℕ × ℕ) :=
  if num_lookups = 0 then [(0, 0, value)]
  else
    let p4 := div_rem num_lookups 4
    let p2 := div_rem p4.2 2
    List.replicate p4.1 (1, 1, value) ++ List.replicate p2.1 (0, 1, value) ++
      List.replicate p2.2 (1, 0, value)

/-- The rows of the 8-bit segment: for each 8-bit value (in order, via
`lookups_8bit.into_iter().enumerate()`) the rows written by `write_value`. -/
def rows8 (hist : List ℕ) : List (ℕ × ℕ × ℕ) :=
  (hist.enum.map (fun p => write_value_rows p.2 p.1)).flatten

/-- Fuel-indexed recursion for the Rust range iterator
`(start..stop).step_by(255)`; the fuel only bounds the recursion depth and
`stepBy255` always supplies enough of it. -/
def stepBy255Fuel : ℕ → ℕ → ℕ → List ℕ
  | 0, _, _ => []
  | fuel + 1, start, stop =>
    if start < stop then start :: stepBy255Fuel fuel (start + 255) stop
    else []

/-- The values produced by the Rust range iterator `(start..stop).step_by(255)`:
`start, start + 255, start + 510, …` strictly below `stop`. -/
def stepBy255 (start stop : ℕ) : List ℕ := stepBy255Fuel stop start stop

/-- The bridge values emitted by `(prev_value..value).step_by(255).skip(1)`. -/
def bridgeVals (prev value : ℕ) : List ℕ :=
  (stepBy255 prev value).drop 1

/-- The rows of the 16-bit segment: iterating the sorted lookup map with
`prev_value` starting at 0, bridge rows (zero lookups) followed by the
`write_value` rows for each entry. -/
def rows16From (prev : ℕ) : Lookups → List (ℕ × ℕ × ℕ)
  | [] => []
  | (value, num_lookups) :: rest =>
    (bridgeVals prev value).map (fun v => (0, 0, v)) ++
      write_value_rows num_lookups value ++ rows16From value rest

/-- All rows of the 16-bit segment of a checker. -/
def rows16 (rc : Lookups) : List (ℕ × ℕ × ℕ) := rows16From 0 rc

/-- The four columns of the range checker trace.  A cell holds `none` when
`into_trace` never wrote to that memory location. -/
structure RCTrace where
  t : List (Option ℕ)
  s0 : List (Option ℕ)
  s1 : List (Option ℕ)
  v : List (Option ℕ)
  deriving Repr, DecidableEq

/-- Sequential writes starting at index `i` (out-of-range writes impossible
under the checked preconditions; `List.set` drops them, and the in-bounds
claim C10 shows none are dropped). -/
def setSeq (col : List (Option ℕ)) (i : ℕ) : List ℕ → List (Option ℕ)
  | [] => col
  | x :: xs => setSeq (col.set i (some x)) (i + 1) xs

/-- Fuel-indexed binary popcount; the fuel only bounds recursion depth. -/
def count_ones_fuel : ℕ → ℕ → ℕ
  | 0, _ => 0
  | _ + 1, 0 => 0
  | fuel + 1, n + 1 => count_ones_fuel fuel ((n + 1) / 2) + (n + 1) % 2

/-- `usize::count_ones`. -/
def count_ones (n : ℕ) : ℕ := count_ones_fuel n n

/-- `usize::is_power_of_two` (`count_ones() == 1`). -/
def is_power_of_two (n : ℕ) : Bool := count_ones n == 1

/-- The body of `RangeChecker::into_trace` after the two assertions have
passed: padding fill, 8-bit segment, `t`-column fills, 16-bit segment. -/
def into_trace_body (rc : Lookups) (target_len num_rand_rows : ℕ) : RCTrace :=
  let b := build_8bit_lookup rc
  let hist := b.1
  let num_16_bit_rows := b.2
  let num_8bit_rows := get_num_8bit_rows hist
  let traceLen := num_8bit_rows + num_16_bit_rows
  let init : List (Option ℕ) := List.replicate target_len none
  let num_padding_rows := target_len - traceLen - num_rand_rows
  -- trace[1..3][..num_padding_rows].fill(ZERO)
  let s0 := setSeq init 0 (List.replicate num_padding_rows 0)
  let s1 := setSeq init 0 (List.replicate num_padding_rows 0)
  let v := setSeq init 0 (List.replicate num_padding_rows 0)
  -- 8-bit segment written at the moving cursor starting at num_padding_rows
  let r8 := rows8 hist
  let s0 := setSeq s0 num_padding_rows (r8.map (fun r => r.1))
  let s1 := setSeq s1 num_padding_rows (r8.map (fun r => r.2.1))
  let v := setSeq v num_padding_rows (r8.map (fun r => r.2.2))
  let i := num_padding_rows + r8.length
  -- trace[0][..i].fill(ZERO); trace[0][i..].fill(ONE)
  let t := setSeq (setSeq init 0 (List.replicate i 0)) i
    (List.replicate (target_len - i) 1)
  -- 16-bit segment continues at the cursor
  let r16 := rows16 rc
  let s0 := setSeq s0 i (r16.map (fun r => r.1))
  let s1 := setSeq s1 i (r16.map (fun r => r.2.1))
  let v := setSeq v i (r16.map (fun r => r.2.2))
  ⟨t, s0, s1, v⟩

/-- `RangeChecker::into_trace`: `none` models a panic of one of the two
assertions; otherwise the trace produced by the writes of the body. -/
def into_trace (rc : Lookups) (target_len num_rand_rows : ℕ) :
    Option RCTrace :=
  if is_power_of_two target_len then
    if trace_len rc + num_rand_rows ≤ target_len then
      some (into_trace_body rc target_len num_rand_rows)
    else none
  else none

/-- A checker state reachable from `new()` by a sequence of `add_value`
calls on `u16` arguments. -/
def Reachable (rc : Lookups) : Prop :=
  ∃ calls : List ℕ, (∀ c ∈ calls, c < 65536) ∧
    rc = calls.foldl add_value newChecker

/-- Lookup weight of a row from its `(s0, s1)` selector pair:
`(0,0) ↦ 0`, `(1,0) ↦ 1`, `(0,1) ↦ 2`, `(1,1) ↦ 4`. -/
def selWeight (s0 s1 : ℕ) : ℕ := s0 + 2 * s1 + s0 * s1

/-- `num_padding_rows` as computed inside `into_trace`. -/
def padLen (rc : Lookups) (L R : ℕ) : ℕ := L - trace_len rc - R

/-- Lookup weight of a selector cell pair; an unwritten cell carries none. -/
def optWeight : Option ℕ → Option ℕ → ℕ
  | some a, some b => selWeight a b
  | _, _ => 0

/-- Weight contributed by one trace row to the lookup count of value `x`:
counted only when the row is in the 16-bit segment (`t = 1`) and carries
value `x`. -/
def cellWeight (t s0 s1 v : Option ℕ) (x : ℕ) : ℕ :=
  if t = some 1 ∧ v = some x then optWeight s0 s1 else 0

/-- Total lookup weight recorded in a trace for value `x`, summed over all
rows with `t = 1` and `v = x`. -/
def traceWeightSum (tr : RCTrace) (x : ℕ) : ℕ :=
  ((tr.t.zip (tr.s0.zip (tr.s1.zip tr.v))).map
    (fun q => cellWeight q.1 q.2.1 q.2.2.1 q.2.2.2 x)).sum

/-- The per-entry 8-bit histogram increments as the spec's §4.2 algorithm
words them: `rows - 1` into slot 0; `delta_q` into slot 255 when
`delta_q > 0`; 1 into slot `delta_r` when `delta_r > 0`. -/
def spec8Entry (prev value count : ℕ) : ℕ → ℕ := fun i =>
  (if i = 0 then lookups_to_rows count - 1 else 0) +
  (if 0 < (value - prev) / 255 ∧ i = 255 then (value - prev) / 255 else 0) +
  (if 0 < (value - prev) % 255 ∧ i = (value - prev) % 255 then 1 else 0)

/-- The per-entry 16-bit row count as the spec's §4.2 algorithm words it:
`rows` for the value itself, plus `delta_q - 1` extra rows when
`delta_r = 0` and `delta_q` otherwise. -/
def spec8Rows (prev value count : ℕ) : ℕ :=
  lookups_to_rows count +
    (if 0 < (value - prev) / 255 then
      (if (value - prev) % 255 = 0 then (value - prev) / 255 - 1
       else (value - prev) / 255)
     else 0)

/-- The spec's 8-bit table derivation: iterate the entries in ascending key
order with `prev` initially 0, summing the per-entry slot increments and
16-bit row counts. -/
def spec8 (prev : ℕ) : Lookups → (ℕ → ℕ) × ℕ
  | [] => (fun _ => 0, 0)
  | (value, count) :: rest =>
    (fun i => spec8Entry prev value count i + (spec8 value rest).1 i,
     spec8Rows prev value count + (spec8 value rest).2)

/-- Increment slot `j` of a histogram by `d`. -/
def bump (l : List ℕ) (j d : ℕ) : List ℕ := l.set j (l.getD j 0 + d)

/-- The 16-bit step relation: values non-decreasing, at most 255 apart. -/
def stepOk (a b : ℕ) : Prop := a ≤ b ∧ b - a ≤ 255

/-- The value column contents of the 8-bit segment rows. -/
def vals8 (hist : List ℕ) : List ℕ := (rows8 hist).map (fun r => r.2.2)

/-- The value column contents of the 16-bit segment rows. -/
def vals16 (rc : Lookups) : List ℕ := (rows16 rc).map (fun r => r.2.2)

/-- Structural invariants of the lookup map: keys strictly increasing (the
`BTreeMap` iteration order), endpoints 0 and 65535 present (inserted by the
constructor), all keys in the `u16` domain. -/
def WF (rc : Lookups) : Prop :=
  List.Pairwise (fun a b : ℕ × ℕ => a.1 < b.1) rc ∧
    0 ∈ rc.map Prod.fst ∧ 65535 ∈ rc.map Prod.fst ∧
    ∀ p ∈ rc, p.1 ≤ 65535

/-- Sum, over the rows of a row list whose value column equals `x`, of the
selector lookup weights. -/
def rowWeightSum (rows : List (ℕ × ℕ × ℕ)) (x : ℕ) : ℕ :=
  (rows.map (fun r => if r.2.2 = x then selWeight r.1 r.2.1 else 0)).sum

/-- Total multiplicity recorded for value `x` in a lookup map. -/
def countLookup (l : Lookups) (x : ℕ) : ℕ :=
  (l.map (fun p => if p.1 = x then p.2 else 0)).sum

-- ======================================================================
-- Basic lemmas about row packing
-- ======================================================================

theorem lookups_to_rows_pos (n : ℕ) : 1 ≤ lookups_to_rows n := by
  unfold lookups_to_rows div_rem
  split
  · exact le_refl 1
  · rename_i h
    simp only []
    omega

theorem length_write_value_rows (n v : ℕ) :
    (write_value_rows n v).length = lookups_to_rows n := by
  unfold write_value_rows lookups_to_rows div_rem
  split
  · rfl
  · simp only [List.length_append, List.length_replicate]

theorem map_v_write_value_rows (n v : ℕ) :
    (write_value_rows n v).map (fun r => r.2.2) =
      List.replicate (lookups_to_rows n) v := by
  unfold write_value_rows lookups_to_rows div_rem
  split
  · rfl
  · simp only [List.map_append, List.map_replicate, ← List.replicate_add]

theorem rowWeightSum_write_value_rows (n v x : ℕ) :
    rowWeightSum (write_value_rows n v) x = if v = x then n else 0 := by
  unfold rowWeightSum write_value_rows div_rem
  split
  · rename_i h
    subst h
    simp [selWeight]
  · simp only [List.map_append, List.map_replicate, List.sum_append,
      List.sum_replicate, smul_eq_mul, selWeight]
    split
    · omega
    · simp

theorem rowWeightSum_append (l₁ l₂ : List (ℕ × ℕ × ℕ)) (x : ℕ) :
    rowWeightSum (l₁ ++ l₂) x = rowWeightSum l₁ x + rowWeightSum l₂ x := by
  unfold rowWeightSum
  simp [List.map_append, List.sum_append]

theorem rowWeightSum_bridges (vals : List ℕ) (x : ℕ) :
    rowWeightSum (vals.map (fun v => ((0 : ℕ), (0 : ℕ), v))) x = 0 := by
  unfold rowWeightSum selWeight
  simp [List.map_map, Function.comp_def]

-- ======================================================================
-- Length lemmas: arithmetic row counts equal emitted row counts
-- ======================================================================

theorem stepBy255Fuel_congr :
    ∀ f₁ f₂ start stop, stop ≤ start + 255 * f₁ → stop ≤ start + 255 * f₂ →
      stepBy255Fuel f₁ start stop = stepBy255Fuel f₂ start stop := by
  intro f₁
  induction f₁ with
  | zero =>
    intro f₂ start stop h₁ h₂
    cases f₂ with
    | zero => rfl
    | succ g =>
      rw [stepBy255Fuel, stepBy255Fuel, if_neg (by omega)]
  | succ f ih =>
    intro f₂ start stop h₁ h₂
    cases f₂ with
    | zero =>
      rw [stepBy255Fuel, stepBy255Fuel, if_neg (by omega)]
    | succ g =>
      rw [stepBy255Fuel, stepBy255Fuel]
      by_cases h : start < stop
      · rw [if_pos h, if_pos h, ih g (start + 255) stop (by omega) (by omega)]
      · rw [if_neg h, if_neg h]

/-- The defining recursion of the bridge iterator. -/
theorem stepBy255_unfold (start stop : ℕ) :
    stepBy255 start stop =
      if start < stop then start :: stepBy255 (start + 255) stop else [] := by
  by_cases h : start < stop
  · rw [if_pos h]
    show stepBy255Fuel stop start stop = _
    cases stop with
    | zero => omega
    | succ m =>
      rw [stepBy255Fuel, if_pos h]
      congr 1
      exact stepBy255Fuel_congr m (m + 1) (start + 255) (m + 1)
        (by omega) (by omega)
  · rw [if_neg h]
    show stepBy255Fuel stop start stop = _
    cases stop with
    | zero => rfl
    | succ m => rw [stepBy255Fuel, if_neg h]

theorem length_stepBy255 (start stop : ℕ) :
    (stepBy255 start stop).length = (stop - start + 254) / 255 := by
  generalize hd : stop - start = d
  induction d using Nat.strong_induction_on generalizing start with
  | _ d ih =>
    rw [stepBy255_unfold]
    by_cases h : start < stop
    · rw [if_pos h, List.length_cons,
        ih (stop - (start + 255)) (by omega) (start + 255) rfl]
      rcases Nat.lt_or_ge stop (start + 255) with h' | h'
      · have e1 : stop - (start + 255) = 0 := by omega
        have e2 : (d + 254) / 255 = 1 := by
          apply Nat.div_eq_of_lt_le <;> omega
        rw [e1, e2]
      · have e1 : stop - (start + 255) + 254 = (d + 254) - 255 := by
          omega
        have e2 : d + 254 = (d + 254 - 255) + 255 := by
          omega
        rw [e1]
        conv_rhs => rw [e2]
        rw [Nat.add_div_right _ (by omega)]
    · rw [if_neg h]
      have : d = 0 := by omega
      subst this
      rfl

theorem length_bridgeVals (prev value : ℕ) :
    (bridgeVals prev value).length = (value - prev + 254) / 255 - 1 := by
  rw [bridgeVals, List.length_drop, length_stepBy255]

/-- The number of bridge rows emitted for a gap equals the count added by
`build_8bit_lookup` (`delta_q - 1` when `delta_r = 0`, else `delta_q`). -/
theorem length_bridgeVals_eq_code (prev value : ℕ) :
    (bridgeVals prev value).length =
      (if (value - prev) / 255 ≠ 0 then
        (if (value - prev) % 255 = 0 then (value - prev) / 255 - 1
         else (value - prev) / 255)
       else 0) := by
  rw [length_bridgeVals]
  have h := Nat.div_add_mod (value - prev) 255
  have hr : (value - prev) % 255 < 255 := Nat.mod_lt _ (by omega)
  set d := value - prev with hd
  set q := d / 255 with hq
  set r := d % 255 with hr'
  split
  · rename_i hq0
    split
    · rename_i hr0
      -- d = 255 * q, q ≥ 1: (255 q + 254) / 255 = q
      have : d + 254 = 255 * q + 254 := by omega
      rw [this, Nat.mul_add_div (by omega)]
      have : (254 : ℕ) / 255 = 0 := by norm_num
      omega
    · rename_i hr0
      -- d = 255 q + r, 0 < r < 255: (d + 254) / 255 = q + 1
      have : d + 254 = 255 * (q + 1) + (r - 1) := by omega
      rw [this, Nat.mul_add_div (by omega)]
      have : (r - 1) / 255 = 0 := Nat.div_eq_of_lt (by omega)
      omega
  · rename_i hq0
    -- q = 0: d < 255, so (d + 254) / 255 ≤ 1
    have hd255 : d < 255 := by
      by_contra hc
      have : 1 ≤ d / 255 := by
        rw [Nat.le_div_iff_mul_le (by omega)]
        omega
      omega
    rcases Nat.eq_zero_or_pos d with h0 | h0
    · rw [h0]
    · have : (d + 254) / 255 = 1 := by
        apply Nat.div_eq_of_lt_le <;> omega
      omega

/-- Per-entry: the 16-bit row count added by one `build_8bit_lookup` step is
exactly the number of rows the 16-bit emitter writes for that entry. -/
theorem build8Step_snd (prev value c : ℕ) (res : List ℕ) (n : ℕ) :
    (build8Step prev value c res n).2 =
      n + ((bridgeVals prev value).map
            (fun v => ((0 : ℕ), (0 : ℕ), v))).length +
        (write_value_rows c value).length := by
  rw [List.length_map, length_bridgeVals_eq_code, length_write_value_rows]
  unfold build8Step div_rem
  simp only []
  split
  · split <;> omega
  · omega

theorem build8Loop_snd (l : Lookups) (prev : ℕ) (res : List ℕ) (n : ℕ) :
    (build8Loop prev l res n).2 = n + (rows16From prev l).length := by
  induction l generalizing prev res n with
  | nil => simp [build8Loop, rows16From]
  | cons p rest ih =>
    obtain ⟨value, c⟩ := p
    rw [build8Loop, rows16From]
    simp only [List.length_append]
    rw [ih, build8Step_snd]
    omega

theorem build8Step_fst_length (prev value c : ℕ) (res : List ℕ) (n : ℕ) :
    (build8Step prev value c res n).1.length = res.length := by
  unfold build8Step
  simp only []
  split <;> split <;> simp [List.length_set]

theorem build8Loop_fst_length (l : Lookups) (prev : ℕ) (res : List ℕ)
    (n : ℕ) : (build8Loop prev l res n).1.length = res.length := by
  induction l generalizing prev res n with
  | nil => rfl
  | cons p rest ih =>
    obtain ⟨value, c⟩ := p
    rw [build8Loop]
    rw [ih, build8Step_fst_length]

theorem length_build_8bit_lookup (rc : Lookups) :
    (build_8bit_lookup rc).1.length = 256 := by
  rw [build_8bit_lookup, build8Loop_fst_length, List.length_replicate]

theorem length_rows8 (hist : List ℕ) :
    (rows8 hist).length = get_num_8bit_rows hist := by
  rw [rows8, get_num_8bit_rows, List.length_flatten, List.map_map]
  have : ∀ l : List ℕ, ∀ k : ℕ,
      ((l.enumFrom k).map (List.length ∘ fun p => write_value_rows p.2 p.1)).sum
        = (l.map lookups_to_rows).sum := by
    intro l
    induction l with
    | nil => intro k; rfl
    | cons a l ih =>
      intro k
      simp only [List.enumFrom, List.map_cons, List.sum_cons, ih,
        Function.comp_apply, length_write_value_rows]
  rw [List.enum]
  exact this _ 0

theorem length_rows16 (rc : Lookups) :
    (rows16 rc).length = (build_8bit_lookup rc).2 := by
  rw [rows16, build_8bit_lookup, build8Loop_snd]
  omega

-- ======================================================================
-- Sequential writes: normal form of the written columns
-- ======================================================================

theorem setSeq_eq (xs : List ℕ) (col : List (Option ℕ)) (i : ℕ)
    (h : i + xs.length ≤ col.length) :
    setSeq col i xs = col.take i ++ xs.map some ++ col.drop (i + xs.length) := by
  induction xs generalizing col i with
  | nil => simp [setSeq]
  | cons x xs ih =>
    rw [setSeq]
    have hlen : (x :: xs).length = xs.length + 1 := rfl
    have hi : i < col.length := by rw [hlen] at h; omega
    have h' : (i + 1) + xs.length ≤ (col.set i (some x)).length := by
      rw [List.length_set]; rw [hlen] at h; omega
    rw [ih (col.set i (some x)) (i + 1) h']
    have hset : col.set i (some x) = col.take i ++ some x :: col.drop (i + 1) :=
      List.set_eq_take_cons_drop _ hi
    have hlt : (col.take i).length = i := by
      rw [List.length_take]; omega
    have htake : (col.set i (some x)).take (i + 1) = col.take i ++ [some x] := by
      rw [hset, List.take_append_eq_append_take, hlt,
        List.take_of_length_le (by omega)]
      congr 1
      have : i + 1 - i = 1 := by omega
      rw [this]
      rfl
    have hdrop : (col.set i (some x)).drop (i + 1 + xs.length) =
        col.drop (i + (xs.length + 1)) := by
      rw [hset, List.drop_append_eq_append_drop, hlt,
        List.drop_eq_nil_of_le (by omega)]
      have : i + 1 + xs.length - i = xs.length + 1 := by omega
      rw [this, List.nil_append, List.drop_succ_cons, List.drop_drop]
      congr 1
      omega
    rw [htake, hdrop, hlen]
    simp [List.append_assoc]

theorem setSeq_fill (L n z : ℕ) (h : n ≤ L) :
    setSeq (List.replicate L (none : Option ℕ)) 0 (List.replicate n z) =
      List.replicate n (some z) ++ List.replicate (L - n) none := by
  rw [setSeq_eq _ _ _ (by simp [h]), List.take_zero, List.map_replicate,
    List.drop_replicate]
  simp

theorem setSeq_write (A : List (Option ℕ)) (i m : ℕ) (xs : List ℕ)
    (hA : A.length = i) (h : xs.length ≤ m) :
    setSeq (A ++ List.replicate m none) i xs =
      A ++ xs.map some ++ List.replicate (m - xs.length) none := by
  rw [setSeq_eq _ _ _ (by simp [hA]; omega), List.take_append_of_le_length
    (by omega), List.take_of_length_le (by omega)]
  congr 1
  rw [List.drop_append_eq_append_drop, List.drop_eq_nil_of_le (by omega),
    List.nil_append, List.drop_replicate, hA]
  congr 2
  omega

/-- Arithmetic consequence of the "target length too small" assertion:
padding, 8-bit rows and 16-bit rows fill the trace up to the random tail. -/
theorem padLen_arith (rc : Lookups) (L R : ℕ) (h : trace_len rc + R ≤ L) :
    padLen rc L R + (rows8 (build_8bit_lookup rc).1).length +
      (rows16 rc).length = L - R := by
  have h8 := length_rows8 (build_8bit_lookup rc).1
  have h16 := length_rows16 rc
  simp only [padLen, trace_len] at *
  omega

/-- Normal form of a data column (`s0`, `s1` or `v`): padding fill, then the
8-bit rows, then the 16-bit rows, with the rest of the memory untouched. -/
theorem col_norm (L pad i : ℕ) (xs ys : List ℕ) (hi : i = pad + xs.length)
    (hfit : pad + xs.length + ys.length ≤ L) :
    setSeq (setSeq (setSeq (List.replicate L (none : Option ℕ)) 0
        (List.replicate pad 0)) pad xs) i ys =
      List.replicate pad (some 0) ++ xs.map some ++ ys.map some ++
        List.replicate (L - pad - xs.length - ys.length) none := by
  subst hi
  rw [setSeq_fill _ _ _ (by omega)]
  rw [setSeq_write _ _ _ _ (by simp) (by omega)]
  rw [setSeq_write _ _ _ _ (by simp) (by omega)]

/-- Normal form of the `t` column: zeros up to the cursor after the 8-bit
segment, ones from there to the very end of the trace memory. -/
theorem t_norm (L i : ℕ) (hi : i ≤ L) :
    setSeq (setSeq (List.replicate L (none : Option ℕ)) 0 (List.replicate i 0))
        i (List.replicate (L - i) 1) =
      List.replicate i (some 0) ++ List.replicate (L - i) (some 1) := by
  rw [setSeq_fill _ _ _ hi]
  rw [setSeq_write _ _ _ _ (by simp) (by simp)]
  simp

theorem body_t_eq (rc : Lookups) (L R : ℕ) (h : trace_len rc + R ≤ L) :
    (into_trace_body rc L R).t =
      List.replicate (padLen rc L R +
          (rows8 (build_8bit_lookup rc).1).length) (some 0) ++
        List.replicate ((rows16 rc).length + R) (some 1) := by
  have h8 := length_rows8 (build_8bit_lookup rc).1
  have h16 := length_rows16 rc
  simp only [trace_len] at h
  simp only [into_trace_body]
  rw [t_norm _ _ (by omega)]
  simp only [padLen, trace_len]
  congr 2
  omega

theorem body_s0_eq (rc : Lookups) (L R : ℕ) (h : trace_len rc + R ≤ L) :
    (into_trace_body rc L R).s0 =
      List.replicate (padLen rc L R) (some 0) ++
        ((rows8 (build_8bit_lookup rc).1).map (fun r => r.1)).map some ++
        ((rows16 rc).map (fun r => r.1)).map some ++
        List.replicate R none := by
  have h8 := length_rows8 (build_8bit_lookup rc).1
  have h16 := length_rows16 rc
  simp only [trace_len] at h
  simp only [into_trace_body]
  rw [col_norm]
  · simp only [padLen, trace_len]
    congr 2
    simp only [List.length_map]
    omega
  · simp
  · simp only [List.length_map]
    omega

theorem body_s1_eq (rc : Lookups) (L R : ℕ) (h : trace_len rc + R ≤ L) :
    (into_trace_body rc L R).s1 =
      List.replicate (padLen rc L R) (some 0) ++
        ((rows8 (build_8bit_lookup rc).1).map (fun r => r.2.1)).map some ++
        ((rows16 rc).map (fun r => r.2.1)).map some ++
        List.replicate R none := by
  have h8 := length_rows8 (build_8bit_lookup rc).1
  have h16 := length_rows16 rc
  simp only [trace_len] at h
  simp only [into_trace_body]
  rw [col_norm]
  · simp only [padLen, trace_len]
    congr 2
    simp only [List.length_map]
    omega
  · simp
  · simp only [List.length_map]
    omega

theorem body_v_eq (rc : Lookups) (L R : ℕ) (h : trace_len rc + R ≤ L) :
    (into_trace_body rc L R).v =
      List.replicate (padLen rc L R) (some 0) ++
        ((rows8 (build_8bit_lookup rc).1).map (fun r => r.2.2)).map some ++
        ((rows16 rc).map (fun r => r.2.2)).map some ++
        List.replicate R none := by
  have h8 := length_rows8 (build_8bit_lookup rc).1
  have h16 := length_rows16 rc
  simp only [trace_len] at h
  simp only [into_trace_body]
  rw [col_norm]
  · simp only [padLen, trace_len]
    congr 2
    simp only [List.length_map]
    omega
  · simp
  · simp only [List.length_map]
    omega

-- ======================================================================
-- Claims C2, C10, C7
-- ======================================================================

/-- C2.  Shared derivation agreement: `trace_len()` equals the exact number
of non-padding, non-random rows `into_trace` writes (8-bit-segment rows plus
16-bit-segment rows including bridge rows), and in particular the 16-bit row
count computed arithmetically in `build_8bit_lookup` (via `delta_q` and
`delta_r`) equals the number of rows produced by the
`(prev_value..value).step_by(255).skip(1)` bridge loop plus the
`lookups_to_rows` packing for each value. -/
theorem claim_C2 (rc : Lookups) (hrc : Reachable rc) :
    trace_len rc =
        (rows8 (build_8bit_lookup rc).1).length + (rows16 rc).length ∧
      (build_8bit_lookup rc).2 = (rows16 rc).length := by
  have h8 := length_rows8 (build_8bit_lookup rc).1
  have h16 := length_rows16 rc
  simp only [trace_len]
  omega

/-- Witness for C2 at the checker obtained from the calls `[100]`. -/
theorem claim_C2_witness :
    trace_len (List.foldl add_value newChecker [100]) =
        (rows8 (build_8bit_lookup
          (List.foldl add_value newChecker [100])).1).length +
          (rows16 (List.foldl add_value newChecker [100])).length ∧
      (build_8bit_lookup (List.foldl add_value newChecker [100])).2 =
        (rows16 (List.foldl add_value newChecker [100])).length :=
  claim_C2 (List.foldl add_value newChecker [100])
    ⟨[100], by intro c hc; simp at hc; omega, rfl⟩

/-- C10.  In-bounds writes under the checked preconditions: the moving write
cursor, which starts at `num_padding_rows` and advances once per written row
of the 8-bit and 16-bit segments, ends exactly at
`target_len - num_rand_rows`, so every written row index is strictly less
than `target_len`. -/
theorem claim_C10 (rc : Lookups) (L R : ℕ) (hrc : Reachable rc)
    (hpow : is_power_of_two L = true) (hfit : trace_len rc + R ≤ L) :
    padLen rc L R + (rows8 (build_8bit_lookup rc).1).length +
        (rows16 rc).length = L - R ∧
      L - R ≤ L :=
  ⟨padLen_arith rc L R hfit, Nat.sub_le L R⟩

/-- Witness for C10 at the empty checker with `target_len = 1024`,
`num_rand_rows = 1`. -/
theorem claim_C10_witness :
    padLen newChecker 1024 1 +
        (rows8 (build_8bit_lookup newChecker).1).length +
        (rows16 newChecker).length = 1024 - 1 ∧
      1024 - 1 ≤ 1024 :=
  claim_C10 newChecker 1024 1 ⟨[], by intro c hc; simp at hc, rfl⟩
    (by decide) (by decide)

/-- C7.  Fatal-abort error semantics: `into_trace` panics (modelled as
`none`) exactly when `target_len` is not a power of two or
`trace_len() + num_rand_rows > target_len`; otherwise it returns the trace
built by the body, with no recoverable error channel.  `add_value` (sorted
map insertion) is total on every `u16` by construction. -/
theorem claim_C7 (rc : Lookups) (L R : ℕ) :
    (into_trace rc L R = none ↔
        ¬(is_power_of_two L = true ∧ trace_len rc + R ≤ L)) ∧
      (into_trace rc L R = some (into_trace_body rc L R) ↔
        is_power_of_two L = true ∧ trace_len rc + R ≤ L) := by
  unfold into_trace
  split
  · split
    · rename_i h1 h2
      simp [h1, h2]
    · rename_i h1 h2
      simp [h1, h2]
  · rename_i h1
    simp [h1]

-- ======================================================================
-- Structural invariants of accumulation, and claim C9
-- ======================================================================

theorem mem_insertLookup (v : ℕ) (l : Lookups) :
    ∀ q ∈ insertLookup v l, q.1 = v ∨ q ∈ l := by
  induction l with
  | nil =>
    intro q hq
    rw [insertLookup, List.mem_singleton] at hq
    subst hq
    exact Or.inl rfl
  | cons p rest ih =>
    obtain ⟨k, c⟩ := p
    intro q hq
    rw [insertLookup] at hq
    split at hq
    · rcases List.mem_cons.mp hq with h1 | h1
      · subst h1; exact Or.inl rfl
      · exact Or.inr h1
    · split at hq
      · rename_i hv
        rcases List.mem_cons.mp hq with h1 | h1
        · subst h1; exact Or.inl hv.symm
        · exact Or.inr (List.mem_cons_of_mem _ h1)
      · rcases List.mem_cons.mp hq with h1 | h1
        · subst h1; exact Or.inr (List.mem_cons_self _ _)
        · rcases ih q h1 with h2 | h2
          · exact Or.inl h2
          · exact Or.inr (List.mem_cons_of_mem _ h2)

theorem keys_mono_insertLookup (v k : ℕ) (l : Lookups)
    (h : k ∈ l.map Prod.fst) : k ∈ (insertLookup v l).map Prod.fst := by
  induction l with
  | nil => simp at h
  | cons p rest ih =>
    obtain ⟨k0, c⟩ := p
    rw [insertLookup]
    split
    · simp only [List.map_cons, List.mem_cons] at h ⊢
      tauto
    · split
      · rename_i hv
        simp only [List.map_cons, List.mem_cons] at h ⊢
        tauto
      · simp only [List.map_cons, List.mem_cons] at h ⊢
        rcases h with h | h
        · exact Or.inl h
        · exact Or.inr (by simpa using ih (by simpa using h))

theorem pairwise_insertLookup (v : ℕ) (l : Lookups)
    (h : List.Pairwise (fun a b : ℕ × ℕ => a.1 < b.1) l) :
    List.Pairwise (fun a b : ℕ × ℕ => a.1 < b.1) (insertLookup v l) := by
  induction l with
  | nil => simp [insertLookup]
  | cons p rest ih =>
    obtain ⟨k, c⟩ := p
    rw [List.pairwise_cons] at h
    obtain ⟨hk, hrest⟩ := h
    rw [insertLookup]
    split
    · rename_i hv
      rw [List.pairwise_cons]
      refine ⟨?_, List.pairwise_cons.mpr ⟨hk, hrest⟩⟩
      intro q hq
      rcases List.mem_cons.mp hq with h1 | h1
      · subst h1; exact hv
      · exact lt_trans hv (hk q h1)
    · split
      · exact List.pairwise_cons.mpr ⟨hk, hrest⟩
      · rename_i hv1 hv2
        rw [List.pairwise_cons]
        refine ⟨?_, ih hrest⟩
        intro q hq
        rcases mem_insertLookup v rest q hq with h1 | h1
        · rw [h1]; omega
        · exact hk q h1

theorem wf_newChecker : WF newChecker := by
  refine ⟨?_, ?_, ?_, ?_⟩ <;> simp [newChecker]

theorem wf_insertLookup (v : ℕ) (rc : Lookups) (hv : v < 65536)
    (h : WF rc) : WF (insertLookup v rc) := by
  obtain ⟨hs, h0, h65535, hb⟩ := h
  refine ⟨pairwise_insertLookup v rc hs, keys_mono_insertLookup v 0 rc h0,
    keys_mono_insertLookup v 65535 rc h65535, ?_⟩
  intro p hp
  rcases mem_insertLookup v rc p hp with h1 | h1
  · omega
  · exact hb p h1

theorem reachable_wf (rc : Lookups) (h : Reachable rc) : WF rc := by
  obtain ⟨calls, hb, rfl⟩ := h
  have main : ∀ (cs : List ℕ) (acc : Lookups), (∀ c ∈ cs, c < 65536) →
      WF acc → WF (cs.foldl add_value acc) := by
    intro cs
    induction cs with
    | nil => intro acc _ hacc; exact hacc
    | cons a cs ih =>
      intro acc hcs hacc
      rw [List.foldl_cons]
      exact ih _ (fun c hc => hcs c (List.mem_cons_of_mem _ hc))
        (wf_insertLookup a acc (hcs a (List.mem_cons_self _ _)) hacc)
  exact main calls newChecker hb wf_newChecker

theorem insertLookup_comm (a b : ℕ) (l : Lookups) :
    insertLookup a (insertLookup b l) = insertLookup b (insertLookup a l) := by
  have aux : ∀ (a b : ℕ) (l : Lookups), a < b →
      insertLookup a (insertLookup b l) = insertLookup b (insertLookup a l) := by
    intro a b l
    induction l generalizing a b with
    | nil =>
      intro hab
      rw [insertLookup, insertLookup, insertLookup, if_pos hab, insertLookup,
        if_neg (by omega), if_neg (by omega), insertLookup]
    | cons p rest ih =>
      intro hab
      obtain ⟨k, c⟩ := p
      rcases lt_trichotomy b k with hbk | hbk | hbk
      · -- a < b < k
        rw [insertLookup, if_pos hbk, insertLookup, if_pos (by omega),
          insertLookup, if_pos (by omega), insertLookup, if_neg (by omega),
          if_neg (by omega), insertLookup, if_pos hbk]
      · -- a < b = k
        subst hbk
        rw [insertLookup, if_neg (by omega), if_pos rfl, insertLookup,
          if_pos hab, insertLookup, if_pos hab, insertLookup,
          if_neg (by omega), if_neg (by omega), insertLookup,
          if_neg (by omega), if_pos rfl]
      · -- b > k; subcases on a vs k
        rcases lt_trichotomy a k with hak | hak | hak
        · rw [insertLookup, if_neg (by omega), if_neg (by omega),
            insertLookup, if_pos hak, insertLookup, if_pos hak,
            insertLookup, if_neg (by omega), if_neg (by omega),
            insertLookup, if_neg (by omega), if_neg (by omega)]
        · subst hak
          rw [insertLookup, if_neg (by omega), if_neg (by omega),
            insertLookup, if_neg (by omega), if_pos rfl, insertLookup,
            if_neg (by omega), if_pos rfl, insertLookup, if_neg (by omega),
            if_neg (by omega)]
        · rw [insertLookup, if_neg (by omega), if_neg (by omega),
            insertLookup, if_neg (by omega), if_neg (by omega),
            insertLookup, if_neg (by omega), if_neg (by omega),
            insertLookup, if_neg (by omega), if_neg (by omega), ih a b hab]
  rcases lt_trichotomy a b with h | h | h
  · exact aux a b l h
  · subst h; rfl
  · exact (aux b a l h).symm

theorem foldl_add_value_perm (l₁ l₂ : List ℕ) (h : l₁.Perm l₂) :
    ∀ acc : Lookups, l₁.foldl add_value acc = l₂.foldl add_value acc := by
  induction h with
  | nil => intro acc; rfl
  | cons x _ ih =>
    intro acc
    simp only [List.foldl_cons]
    exact ih _
  | swap x y l =>
    intro acc
    simp only [List.foldl_cons]
    rw [show add_value (add_value acc y) x = add_value (add_value acc x) y
      from insertLookup_comm x y acc]
  | trans _ _ ih₁ ih₂ =>
    intro acc
    rw [ih₁, ih₂]

/-- C9.  Order-insensitivity of accumulation: permuted `add_value` call
sequences produce the same checker state, hence the same `trace_len()` and
the same trace from `into_trace` for every `(target_len, num_rand_rows)`;
only the multiset of calls matters. -/
theorem claim_C9 (calls₁ calls₂ : List ℕ) (hperm : calls₁.Perm calls₂) :
    calls₁.foldl add_value newChecker = calls₂.foldl add_value newChecker ∧
      trace_len (calls₁.foldl add_value newChecker) =
        trace_len (calls₂.foldl add_value newChecker) ∧
      ∀ L R : ℕ, into_trace (calls₁.foldl add_value newChecker) L R =
        into_trace (calls₂.foldl add_value newChecker) L R := by
  have h := foldl_add_value_perm calls₁ calls₂ hperm newChecker
  exact ⟨h, by rw [h], fun L R => by rw [h]⟩

/-- Witness for C9 on the permuted call lists `[7, 300, 7]` and
`[300, 7, 7]`. -/
theorem claim_C9_witness :
    [7, 300, 7].foldl add_value newChecker =
        [300, 7, 7].foldl add_value newChecker ∧
      trace_len ([7, 300, 7].foldl add_value newChecker) =
        trace_len ([300, 7, 7].foldl add_value newChecker) ∧
      ∀ L R : ℕ, into_trace ([7, 300, 7].foldl add_value newChecker) L R =
        into_trace ([300, 7, 7].foldl add_value newChecker) L R :=
  claim_C9 [7, 300, 7] [300, 7, 7] (by decide)

-- ======================================================================
-- Claim C1: multiplicity conservation
-- ======================================================================

theorem countLookup_insertLookup (v x : ℕ) (l : Lookups) :
    countLookup (insertLookup v l) x =
      countLookup l x + (if v = x then 1 else 0) := by
  induction l with
  | nil =>
    simp only [insertLookup, countLookup, List.map_cons, List.map_nil,
      List.sum_cons, List.sum_nil]
    split <;> omega
  | cons p rest ih =>
    obtain ⟨k, c⟩ := p
    rw [insertLookup]
    split
    · simp only [countLookup, List.map_cons, List.sum_cons]
      split <;> split <;> omega
    · split
      · rename_i h1 h2
        subst h2
        simp only [countLookup, List.map_cons, List.sum_cons]
        split <;> omega
      · simp only [countLookup, List.map_cons, List.sum_cons] at *
        rw [ih]
        omega

theorem countLookup_foldl (calls : List ℕ) (x : ℕ) :
    ∀ acc : Lookups, countLookup (calls.foldl add_value acc) x =
      countLookup acc x + calls.count x := by
  induction calls with
  | nil => intro acc; simp
  | cons a cs ih =>
    intro acc
    rw [List.foldl_cons, ih, add_value, countLookup_insertLookup]
    rw [List.count_cons]
    simp only [beq_iff_eq]
    split <;> omega

theorem countLookup_newChecker (x : ℕ) : countLookup newChecker x = 0 := by
  simp only [countLookup, newChecker, List.map_cons, List.map_nil,
    List.sum_cons, List.sum_nil]
  split <;> split <;> omega

/-- Rows-level multiplicity conservation for the 16-bit segment: bridge rows
carry weight 0, and the packed rows for each entry sum to its count. -/
theorem rowWeightSum_rows16From (l : Lookups) (x : ℕ) :
    ∀ prev : ℕ, rowWeightSum (rows16From prev l) x = countLookup l x := by
  induction l with
  | nil => intro prev; rfl
  | cons p rest ih =>
    intro prev
    obtain ⟨k, c⟩ := p
    rw [rows16From, rowWeightSum_append, rowWeightSum_append,
      rowWeightSum_bridges, rowWeightSum_write_value_rows, ih]
    simp only [countLookup, List.map_cons, List.sum_cons]
    split <;> omega

theorem zip_replicate_same {α β : Type} (n : ℕ) (a : α) (b : β) :
    (List.replicate n a).zip (List.replicate n b) =
      List.replicate n (a, b) := by
  induction n with
  | zero => rfl
  | succ m ih => simp [List.replicate_succ, ih]

theorem sum_zip4_append
    (F : Option ℕ × Option ℕ × Option ℕ × Option ℕ → ℕ)
    (t₁ t₂ s₁ s₂ u₁ u₂ w₁ w₂ : List (Option ℕ))
    (h1 : t₁.length = s₁.length) (h2 : t₁.length = u₁.length)
    (h3 : t₁.length = w₁.length) :
    (((t₁ ++ t₂).zip ((s₁ ++ s₂).zip ((u₁ ++ u₂).zip (w₁ ++ w₂)))).map F).sum
      = ((t₁.zip (s₁.zip (u₁.zip w₁))).map F).sum +
        ((t₂.zip (s₂.zip (u₂.zip w₂))).map F).sum := by
  rw [List.zip_append (show u₁.length = w₁.length by omega)]
  rw [List.zip_append (show s₁.length = (u₁.zip w₁).length by
    rw [List.length_zip]; omega)]
  rw [List.zip_append (show t₁.length = (s₁.zip (u₁.zip w₁)).length by
    rw [List.length_zip, List.length_zip]; omega)]
  rw [List.map_append, List.sum_append]

theorem sum_cellWeight_t_ne_one (ts : List (Option ℕ))
    (inner : List (Option ℕ × Option ℕ × Option ℕ)) (x : ℕ)
    (ht : ∀ a ∈ ts, a ≠ some 1) :
    ((ts.zip inner).map
      (fun q => cellWeight q.1 q.2.1 q.2.2.1 q.2.2.2 x)).sum = 0 := by
  apply List.sum_eq_zero
  intro y hy
  rw [List.mem_map] at hy
  obtain ⟨q, hq, rfl⟩ := hy
  obtain ⟨a, b⟩ := q
  have hmem := List.of_mem_zip hq
  rw [cellWeight, if_neg]
  intro hcon
  exact ht a hmem.1 hcon.1

theorem sum_cellWeight_v_none (ts ss us : List (Option ℕ)) (R x : ℕ) :
    ((ts.zip (ss.zip (us.zip (List.replicate R (none : Option ℕ))))).map
      (fun q => cellWeight q.1 q.2.1 q.2.2.1 q.2.2.2 x)).sum = 0 := by
  apply List.sum_eq_zero
  intro y hy
  rw [List.mem_map] at hy
  obtain ⟨q, hq, rfl⟩ := hy
  obtain ⟨a, b, c, d⟩ := q
  have h1 := (List.of_mem_zip hq).2
  have h2 := (List.of_mem_zip h1).2
  have h3 := (List.of_mem_zip h2).2
  have hd : d = none := List.eq_of_mem_replicate h3
  subst hd
  rw [cellWeight, if_neg]
  intro hcon
  exact Option.noConfusion hcon.2

/-- The 16-bit segment contributes exactly the rows-level weight sum. -/
theorem sum_cellWeight_16seg (rows : List (ℕ × ℕ × ℕ)) (x : ℕ) :
    (((List.replicate rows.length ((some 1) : Option ℕ)).zip
      (((rows.map (fun r => r.1)).map some).zip
        (((rows.map (fun r => r.2.1)).map some).zip
          ((rows.map (fun r => r.2.2)).map some)))).map
            (fun q => cellWeight q.1 q.2.1 q.2.2.1 q.2.2.2 x)).sum
      = rowWeightSum rows x := by
  induction rows with
  | nil => rfl
  | cons r rest ih =>
    simp only [List.map_cons, List.length_cons, List.replicate_succ,
      List.zip_cons_cons, List.sum_cons]
    rw [ih]
    simp only [rowWeightSum, List.map_cons, List.sum_cons]
    congr 1
    rw [cellWeight]
    by_cases hv : r.2.2 = x
    · rw [if_pos ⟨rfl, by rw [hv]⟩, if_pos hv]
      rfl
    · rw [if_neg, if_neg hv]
      intro hcon
      exact hv (Option.some_inj.mp hcon.2)

/-- Under the checked preconditions, the total lookup weight the trace
records for `x` equals the rows-level 16-bit weight sum. -/
theorem traceWeightSum_body (rc : Lookups) (L R x : ℕ)
    (h : trace_len rc + R ≤ L) :
    traceWeightSum (into_trace_body rc L R) x = rowWeightSum (rows16 rc) x := by
  rw [traceWeightSum, body_t_eq rc L R h, body_s0_eq rc L R h,
    body_s1_eq rc L R h, body_v_eq rc L R h]
  rw [List.replicate_add ((rows16 rc).length) R, ← List.append_assoc]
  rw [sum_zip4_append _ _ _ _ _ _ _ _ _
    (by simp; omega) (by simp; omega) (by simp; omega)]
  rw [sum_zip4_append _ _ _ _ _ _ _ _ _
    (by simp) (by simp) (by simp)]
  rw [sum_cellWeight_t_ne_one _ _ _
    (fun a ha => by
      have := List.eq_of_mem_replicate ha
      subst this
      simp)]
  rw [sum_cellWeight_v_none]
  rw [sum_cellWeight_16seg]
  omega

/-- C1.  Multiplicity conservation: for every multiset of `add_value` calls
and valid `(target_len, num_rand_rows)`, in the trace returned by
`into_trace`, for every 16-bit value `x` passed to `add_value` exactly `k`
times, the sum of per-row lookup weights (0 for selector `(0,0)`, 1 for
`(1,0)`, 2 for `(0,1)`, 4 for `(1,1)`) over all rows with `t = 1` and
`v = x` equals `k`. -/
theorem claim_C1 (calls : List ℕ) (hcalls : ∀ c ∈ calls, c < 65536)
    (L R x : ℕ) (hpow : is_power_of_two L = true)
    (hfit : trace_len (calls.foldl add_value newChecker) + R ≤ L) :
    into_trace (calls.foldl add_value newChecker) L R =
        some (into_trace_body (calls.foldl add_value newChecker) L R) ∧
      traceWeightSum (into_trace_body (calls.foldl add_value newChecker) L R)
          x = calls.count x := by
  constructor
  · rw [into_trace, if_pos hpow, if_pos hfit]
  · rw [traceWeightSum_body _ _ _ _ hfit, rows16,
      rowWeightSum_rows16From _ _ 0, countLookup_foldl,
      countLookup_newChecker, Nat.zero_add]

/-- Witness for C1: five `add_value(1000)` calls, `target_len = 1024`,
`num_rand_rows = 1`, checked at `x = 1000`. -/
theorem claim_C1_witness :
    into_trace ([1000, 1000, 1000, 1000, 1000].foldl add_value newChecker)
          1024 1 =
        some (into_trace_body
          ([1000, 1000, 1000, 1000, 1000].foldl add_value newChecker)
          1024 1) ∧
      traceWeightSum (into_trace_body
          ([1000, 1000, 1000, 1000, 1000].foldl add_value newChecker)
          1024 1) 1000 = [1000, 1000, 1000, 1000, 1000].count 1000 :=
  claim_C1 [1000, 1000, 1000, 1000, 1000]
    (by intro c hc; simp at hc; omega) 1024 1 1000 (by decide) (by decide)

-- ======================================================================
-- Claim C4: 16-bit step bound
-- ======================================================================

theorem chain_stepBy255_tail (a b : ℕ) (hab : a < b) :
    List.Chain stepOk a (stepBy255 (a + 255) b ++ [b]) := by
  generalize hd : b - a = d
  induction d using Nat.strong_induction_on generalizing a with
  | _ d ih =>
    rw [stepBy255_unfold]
    by_cases h : a + 255 < b
    · rw [if_pos h, List.cons_append]
      exact List.Chain.cons ⟨by omega, by omega⟩
        (ih (b - (a + 255)) (by omega) (a + 255) h rfl)
    · rw [if_neg h, List.nil_append]
      exact List.chain_singleton.mpr ⟨by omega, by omega⟩

theorem chain_bridge (prev value : ℕ) (h : prev ≤ value) :
    List.Chain stepOk prev (bridgeVals prev value ++ [value]) := by
  rcases Nat.lt_or_ge prev value with hlt | hge
  · rw [bridgeVals, stepBy255_unfold, if_pos hlt, List.drop_succ_cons,
      List.drop_zero]
    exact chain_stepBy255_tail prev value hlt
  · have : prev = value := by omega
    subst this
    rw [bridgeVals, stepBy255_unfold, if_neg (by omega)]
    exact List.chain_singleton.mpr ⟨le_refl _, by omega⟩

theorem chain_replicate_append (m v : ℕ) (ys : List ℕ)
    (h : List.Chain stepOk v ys) :
    List.Chain stepOk v (List.replicate m v ++ ys) := by
  induction m with
  | zero => exact h
  | succ k ih =>
    rw [List.replicate_succ, List.cons_append]
    exact List.Chain.cons ⟨le_refl _, by omega⟩ ih

theorem chain_vals16From (l : Lookups) :
    ∀ prev : ℕ, List.Pairwise (fun a b : ℕ × ℕ => a.1 < b.1) l →
      (∀ p ∈ l, prev ≤ p.1) →
      List.Chain stepOk prev ((rows16From prev l).map (fun r => r.2.2)) := by
  induction l with
  | nil =>
    intro prev _ _
    exact List.Chain.nil
  | cons p rest ih =>
    intro prev hsort hlb
    obtain ⟨k, c⟩ := p
    rw [List.pairwise_cons] at hsort
    obtain ⟨hk, hrest⟩ := hsort
    rw [rows16From, List.map_append, List.map_append, List.map_map,
      map_v_write_value_rows]
    have hrep : lookups_to_rows c = (lookups_to_rows c - 1) + 1 := by
      have := lookups_to_rows_pos c
      omega
    rw [hrep, List.replicate_succ, List.append_assoc, List.cons_append]
    have hmap : (bridgeVals prev k).map
        ((fun r : ℕ × ℕ × ℕ => r.2.2) ∘ fun v => ((0 : ℕ), (0 : ℕ), v)) =
        bridgeVals prev k := by
      simp [Function.comp_def]
    rw [hmap, List.chain_split]
    constructor
    · exact chain_bridge prev k (hlb (k, c) (List.mem_cons_self _ _))
    · apply chain_replicate_append
      exact ih k hrest (fun q hq => le_of_lt (hk q hq))

/-- The value column of the 16-bit segment satisfies the step relation
between every pair of consecutive rows. -/
theorem chain_vals16 (rc : Lookups)
    (hsort : List.Pairwise (fun a b : ℕ × ℕ => a.1 < b.1) rc) :
    List.Chain' stepOk (vals16 rc) := by
  have h : List.Chain stepOk 0 ((rows16From 0 rc).map (fun r => r.2.2)) :=
    chain_vals16From rc 0 hsort (fun p _ => Nat.zero_le _)
  have h' : List.Chain' stepOk
      (0 :: (rows16From 0 rc).map (fun r => r.2.2)) := h
  exact (List.chain'_cons'.mp h').2

theorem getElem?_append_sized {α : Type} (l₁ l₂ : List α) (m j : ℕ)
    (hm : l₁.length = m) :
    (l₁ ++ l₂)[j]? = if j < m then l₁[j]? else l₂[j - m]? := by
  subst hm
  split
  · rw [List.getElem?_append_left]
    assumption
  · rw [List.getElem?_append_right]
    omega

/-- Reading a written 16-bit segment cell: a `t = 1` row whose value cell
was written lies in the 16-bit segment and carries the `vals16` entry. -/
theorem v16_read (rc : Lookups) (L R : ℕ) (h : trace_len rc + R ≤ L)
    (j y : ℕ)
    (htj : (into_trace_body rc L R).t[j]? = some (some 1))
    (hvj : (into_trace_body rc L R).v[j]? = some (some y)) :
    ∃ hj : j - (padLen rc L R + (rows8 (build_8bit_lookup rc).1).length) <
        (vals16 rc).length,
      padLen rc L R + (rows8 (build_8bit_lookup rc).1).length ≤ j ∧
        (vals16 rc).get ⟨j - (padLen rc L R +
          (rows8 (build_8bit_lookup rc).1).length), hj⟩ = y := by
  rw [body_t_eq rc L R h] at htj
  rw [body_v_eq rc L R h] at hvj
  set P := padLen rc L R with hP
  set n8 := (rows8 (build_8bit_lookup rc).1).length with hn8
  set n16 := (rows16 rc).length with hn16
  -- the t column forces P + n8 ≤ j
  rw [getElem?_append_sized _ _ (P + n8) j (by simp)] at htj
  have hj1 : P + n8 ≤ j := by
    by_contra hcon
    rw [if_pos (by omega), List.getElem?_replicate, if_pos (by omega)] at htj
    simp at htj
  -- the v column: j is neither padding, nor 8-bit, nor unwritten tail
  rw [List.append_assoc, List.append_assoc] at hvj
  rw [getElem?_append_sized _ _ P j (by simp)] at hvj
  rw [if_neg (by omega)] at hvj
  rw [getElem?_append_sized _ _ n8 (j - P) (by simp [hn8])] at hvj
  rw [if_neg (by omega)] at hvj
  rw [getElem?_append_sized _ _ n16 (j - P - n8) (by simp [hn16, vals16])]
    at hvj
  by_cases hin : j - P - n8 < n16
  · rw [if_pos hin] at hvj
    have e1 : j - P - n8 = j - (P + n8) := by omega
    rw [e1] at hvj hin
    have hlen16 : j - (P + n8) < (rows16 rc).length := by omega
    have hlen : j - (P + n8) < (vals16 rc).length := by
      simpa only [vals16, List.length_map] using hlen16
    refine ⟨hlen, hj1, ?_⟩
    rw [show List.map (fun r : ℕ × ℕ × ℕ => r.2.2) (rows16 rc) = vals16 rc
      from rfl] at hvj
    rw [List.getElem?_map, List.getElem?_eq_getElem hlen] at hvj
    simp only [Option.map_some'] at hvj
    rw [List.get_eq_getElem]
    exact Option.some_inj.mp (Option.some_inj.mp hvj)
  · rw [if_neg hin, List.getElem?_replicate] at hvj
    split at hvj <;> simp at hvj

/-- C4.  16-bit step bound: in every trace returned by `into_trace` under
the checked preconditions, any two consecutive rows that both carry `t = 1`
and whose value cells were written have non-decreasing values at most 255
apart. -/
theorem claim_C4 (calls : List ℕ) (hcalls : ∀ c ∈ calls, c < 65536)
    (L R j a b : ℕ) (hpow : is_power_of_two L = true)
    (hfit : trace_len (calls.foldl add_value newChecker) + R ≤ L)
    (ht1 : (into_trace_body (calls.foldl add_value newChecker) L R).t[j]? =
      some (some 1))
    (ht2 : (into_trace_body (calls.foldl add_value newChecker) L
      R).t[j + 1]? = some (some 1))
    (hv1 : (into_trace_body (calls.foldl add_value newChecker) L R).v[j]? =
      some (some a))
    (hv2 : (into_trace_body (calls.foldl add_value newChecker) L
      R).v[j + 1]? = some (some b)) :
    a ≤ b ∧ b - a ≤ 255 := by
  set rc := calls.foldl add_value newChecker with hrc
  have hwf : WF rc := reachable_wf rc ⟨calls, hcalls, hrc⟩
  obtain ⟨h1, h1le, hget1⟩ := v16_read rc L R hfit j a ht1 hv1
  obtain ⟨h2, h2le, hget2⟩ := v16_read rc L R hfit (j + 1) b ht2 hv2
  have hchain := chain_vals16 rc hwf.1
  rw [List.chain'_iff_get] at hchain
  set P8 := padLen rc L R + (rows8 (build_8bit_lookup rc).1).length with hP8
  have e2 : j + 1 - P8 = (j - P8) + 1 := by omega
  have hstep := hchain (j - P8) (by omega)
  rw [hget1] at hstep
  rw [show ((⟨j - P8 + 1, by omega⟩ : Fin (vals16 rc).length)) =
    (⟨j + 1 - P8, by omega⟩ : Fin (vals16 rc).length) from by
      apply Fin.ext
      simp [e2]] at hstep
  rw [hget2] at hstep
  exact hstep

/-- Witness for C4: the empty checker at `target_len = 1024`,
`num_rand_rows = 0`; rows 766 and 767 are the first two 16-bit rows,
carrying `v = 0` and the first bridge value `v = 255`. -/
theorem claim_C4_witness : (0 : ℕ) ≤ 255 ∧ 255 - 0 ≤ 255 :=
  claim_C4 [] (by intro c hc; simp at hc) 1024 0 766 0 255 (by decide)
    (by decide)
    (by rw [body_t_eq
      (List.foldl add_value newChecker []) 1024 0 (by decide)]; decide)
    (by rw [body_t_eq
      (List.foldl add_value newChecker []) 1024 0 (by decide)]; decide)
    (by rw [body_v_eq
      (List.foldl add_value newChecker []) 1024 0 (by decide)]; decide)
    (by rw [body_v_eq
      (List.foldl add_value newChecker []) 1024 0 (by decide)]; decide)

-- ======================================================================
-- Claim C5: 16-bit endpoints
-- ======================================================================

theorem first_entry (rc : Lookups)
    (hsort : List.Pairwise (fun a b : ℕ × ℕ => a.1 < b.1) rc)
    (h0 : 0 ∈ rc.map Prod.fst) : ∃ c rest, rc = (0, c) :: rest := by
  cases rc with
  | nil => simp at h0
  | cons p rest =>
    obtain ⟨k, c⟩ := p
    rw [List.pairwise_cons] at hsort
    simp only [List.map_cons, List.mem_cons] at h0
    rcases h0 with h | h
    · exact ⟨c, rest, by rw [h]⟩
    · obtain ⟨q, hq, hq0⟩ := List.mem_map.mp h
      have := hsort.1 q hq
      omega

theorem last_entry (rc : Lookups) :
    List.Pairwise (fun a b : ℕ × ℕ => a.1 < b.1) rc →
      65535 ∈ rc.map Prod.fst → (∀ p ∈ rc, p.1 ≤ 65535) →
      ∃ c, rc.getLast? = some (65535, c) := by
  induction rc with
  | nil => intro _ h _; simp at h
  | cons p rest ih =>
    intro hsort hmem hb
    obtain ⟨k, c⟩ := p
    rw [List.pairwise_cons] at hsort
    cases rest with
    | nil =>
      simp only [List.map_cons, List.map_nil, List.mem_cons,
        List.not_mem_nil, or_false] at hmem
      exact ⟨c, by rw [hmem, List.getLast?_singleton]⟩
    | cons q rest2 =>
      rw [List.getLast?_cons_cons]
      apply ih hsort.2
      · simp only [List.map_cons, List.mem_cons] at hmem ⊢
        rcases hmem with h | h
        · -- the head key is 65535, yet a later key is strictly larger
          have hq := hsort.1 q (List.mem_cons_self _ _)
          have hqb := hb q (List.mem_cons_of_mem _ (List.mem_cons_self _ _))
          omega
        · exact h
      · intro p hp
        exact hb p (List.mem_cons_of_mem _ hp)

theorem rows16From_cons_ne_nil (p : ℕ × ℕ) (rest : Lookups) (prev : ℕ) :
    rows16From prev (p :: rest) ≠ [] := by
  obtain ⟨k, c⟩ := p
  apply List.ne_nil_of_length_pos
  rw [rows16From, List.length_append, List.length_append,
    length_write_value_rows]
  have := lookups_to_rows_pos c
  omega

theorem vals16_head (rc : Lookups)
    (hsort : List.Pairwise (fun a b : ℕ × ℕ => a.1 < b.1) rc)
    (h0 : 0 ∈ rc.map Prod.fst) : (vals16 rc).head? = some 0 := by
  obtain ⟨c, rest, rfl⟩ := first_entry rc hsort h0
  rw [vals16, rows16, rows16From]
  have hbr : bridgeVals 0 0 = [] := by
    rw [bridgeVals, stepBy255_unfold, if_neg (by omega)]
    rfl
  rw [hbr, List.map_nil, List.nil_append, List.map_append,
    map_v_write_value_rows]
  have hrep : lookups_to_rows c = (lookups_to_rows c - 1) + 1 := by
    have := lookups_to_rows_pos c
    omega
  rw [hrep, List.replicate_succ, List.cons_append, List.head?_cons]

theorem vals16From_getLast (l : Lookups) (k c : ℕ) :
    ∀ prev, l.getLast? = some (k, c) →
      ((rows16From prev l).map (fun r => r.2.2)).getLast? = some k := by
  induction l with
  | nil => intro prev h; simp at h
  | cons p rest ih =>
    intro prev h
    obtain ⟨k0, c0⟩ := p
    cases rest with
    | nil =>
      rw [List.getLast?_singleton, Option.some_inj] at h
      rw [rows16From, rows16From, List.append_nil, List.map_append,
        map_v_write_value_rows, List.getLast?_append,
        List.getLast?_replicate, if_neg (by have := lookups_to_rows_pos c0; omega)]
      rw [show k0 = k from congrArg Prod.fst h]
      rfl
    | cons q rest2 =>
      rw [List.getLast?_cons_cons] at h
      rw [rows16From, List.map_append, List.map_append,
        List.getLast?_append, List.getLast?_append, ih k0 h]
      rfl

/-- C5.  16-bit endpoints: construction seeds the lookup map with entries
for 0 and 65535 and `add_value` never removes them, so for every multiset
of calls and valid `(target_len, num_rand_rows)` the first row of the
16-bit segment carries `v = 0` and the last row before the random tail
carries `v = 65535`. -/
theorem claim_C5 (calls : List ℕ) (hcalls : ∀ c ∈ calls, c < 65536)
    (L R : ℕ) (hpow : is_power_of_two L = true)
    (hfit : trace_len (calls.foldl add_value newChecker) + R ≤ L) :
    0 ∈ (calls.foldl add_value newChecker).map Prod.fst ∧
      65535 ∈ (calls.foldl add_value newChecker).map Prod.fst ∧
      (into_trace_body (calls.foldl add_value newChecker) L
          R).v[padLen (calls.foldl add_value newChecker) L R +
            (rows8 (build_8bit_lookup
              (calls.foldl add_value newChecker)).1).length]? =
        some (some 0) ∧
      (into_trace_body (calls.foldl add_value newChecker) L
          R).v[L - R - 1]? = some (some 65535) := by
  set rc := calls.foldl add_value newChecker with hrc
  have hwf : WF rc := reachable_wf rc ⟨calls, hcalls, hrc⟩
  obtain ⟨hsort, h0, h65535, hb⟩ := hwf
  set P := padLen rc L R with hP
  set n8 := (rows8 (build_8bit_lookup rc).1).length with hn8
  set n16 := (rows16 rc).length with hn16
  have hpos : 0 < n16 := by
    obtain ⟨c, rest, hrc0⟩ := first_entry rc hsort h0
    rw [hn16, hrc0, rows16]
    exact List.length_pos_of_ne_nil (rows16From_cons_ne_nil _ _ _)
  have harith := padLen_arith rc L R hfit
  rw [← hP, ← hn8, ← hn16] at harith
  refine ⟨h0, h65535, ?_, ?_⟩
  · rw [body_v_eq rc L R hfit]
    rw [List.append_assoc]
    rw [getElem?_append_sized _ _ (P + n8) (P + n8) (by simp [hn8])]
    rw [if_neg (by omega), Nat.sub_self]
    rw [getElem?_append_sized _ _ n16 0 (by simp [hn16])]
    rw [if_pos (by omega)]
    rw [← List.head?_eq_getElem?, List.head?_map]
    have := vals16_head rc hsort h0
    rw [vals16] at this
    rw [this]
    rfl
  · rw [body_v_eq rc L R hfit]
    rw [List.append_assoc]
    rw [getElem?_append_sized _ _ (P + n8) (L - R - 1) (by simp [hn8])]
    rw [if_neg (by omega)]
    rw [getElem?_append_sized _ _ n16 (L - R - 1 - (P + n8))
      (by simp [hn16])]
    rw [if_pos (by omega)]
    have eidx : L - R - 1 - (P + n8) = n16 - 1 := by omega
    rw [eidx]
    have hlast : ((rows16 rc).map (fun r => r.2.2)).getLast? =
        some 65535 := by
      obtain ⟨c, hc⟩ := last_entry rc hsort h65535 hb
      exact vals16From_getLast rc 65535 c 0 hc
    have hlen : (((rows16 rc).map (fun r => r.2.2)).map some).length =
        n16 := by simp [hn16]
    rw [show n16 - 1 = (((rows16 rc).map (fun r => r.2.2)).map
      some).length - 1 from by rw [hlen]]
    rw [← List.getLast?_eq_getElem?, List.getLast?_map, hlast]
    rfl

/-- Witness for C5: the calls `[0, 65535]` (spec scenario 4),
`target_len = 1024`, `num_rand_rows = 1`. -/
theorem claim_C5_witness :
    0 ∈ ([0, 65535].foldl add_value newChecker).map Prod.fst ∧
      65535 ∈ ([0, 65535].foldl add_value newChecker).map Prod.fst ∧
      (into_trace_body ([0, 65535].foldl add_value newChecker) 1024
          1).v[padLen ([0, 65535].foldl add_value newChecker) 1024 1 +
            (rows8 (build_8bit_lookup
              ([0, 65535].foldl add_value newChecker)).1).length]? =
        some (some 0) ∧
      (into_trace_body ([0, 65535].foldl add_value newChecker) 1024
          1).v[1024 - 1 - 1]? = some (some 65535) :=
  claim_C5 [0, 65535] (by intro c hc; simp at hc; omega) 1024 1
    (by decide) (by decide)

-- ======================================================================
-- Claim C6: 8-bit coverage
-- ======================================================================

theorem vals8_eq (hist : List ℕ) :
    vals8 hist = ((hist.enum.map
      (fun p => List.replicate (lookups_to_rows p.2) p.1))).flatten := by
  rw [vals8, rows8, List.map_flatten, List.map_map]
  congr 1
  apply List.map_congr_left
  intro p _
  simp only [Function.comp_apply]
  exact map_v_write_value_rows p.2 p.1

theorem chain_le_replicate (m x : ℕ) :
    List.Chain' (· ≤ ·) (List.replicate m x) := by
  induction m with
  | zero => simp
  | succ k ih =>
    cases k with
    | zero => simp
    | succ k2 =>
      rw [List.replicate_succ, List.replicate_succ, List.chain'_cons,
        ← List.replicate_succ]
      exact ⟨le_refl x, ih⟩

/-- The 8-bit block list starting at key `k`: sorted, bounded and covering
exactly the keys `k, …, k + l.length - 1`. -/
theorem vals8_enumFrom (l : List ℕ) : ∀ k : ℕ,
    List.Chain' (· ≤ ·) (((l.enumFrom k).map
        (fun p => List.replicate (lookups_to_rows p.2) p.1)).flatten) ∧
      (∀ x ∈ ((l.enumFrom k).map
        (fun p => List.replicate (lookups_to_rows p.2) p.1)).flatten,
          k ≤ x ∧ x < k + l.length) ∧
      (∀ i : ℕ, k ≤ i → i < k + l.length →
        i ∈ ((l.enumFrom k).map
          (fun p => List.replicate (lookups_to_rows p.2) p.1)).flatten) := by
  induction l with
  | nil =>
    intro k
    refine ⟨by simp, by simp, ?_⟩
    intro i h1 h2
    simp at h2
    omega
  | cons n rest ih =>
    intro k
    obtain ⟨ihc, ihb, ihm⟩ := ih (k + 1)
    simp only [List.enumFrom, List.map_cons, List.flatten_cons]
    have hpos := lookups_to_rows_pos n
    refine ⟨?_, ?_, ?_⟩
    · rw [List.chain'_append]
      refine ⟨chain_le_replicate _ _, ihc, ?_⟩
      intro x hx y hy
      have hx2 : x = k := by
        have := List.getLast?_replicate k (lookups_to_rows n)
        rw [this, if_neg (by omega)] at hx
        simp at hx
        omega
      have hy2 := ihb y (List.mem_of_mem_head? hy)
      omega
    · intro x hx
      rw [List.mem_append] at hx
      rcases hx with hx | hx
      · have := List.eq_of_mem_replicate hx
        subst this
        simp only [List.length_cons]
        omega
      · have := ihb x hx
        simp only [List.length_cons]
        omega
    · intro i h1 h2
      rw [List.mem_append]
      rcases Nat.eq_or_lt_of_le h1 with he | hlt
      · left
        rw [← he]
        exact List.mem_replicate.mpr ⟨by omega, rfl⟩
      · right
        apply ihm i (by omega)
        simp only [List.length_cons] at h2
        omega

/-- C6.  8-bit coverage: within the 8-bit segment (the rows from the end of
padding up to the first `t = 1` row) the value column is exactly the blocks
of `lookups_to_rows (histogram[i]) ≥ 1` consecutive copies of each `i` in
ascending order, so the sequence is non-decreasing and its set of distinct
values is exactly `{0, …, 255}`. -/
theorem claim_C6 (calls : List ℕ) (hcalls : ∀ c ∈ calls, c < 65536)
    (L R : ℕ) (hpow : is_power_of_two L = true)
    (hfit : trace_len (calls.foldl add_value newChecker) + R ≤ L) :
    (((into_trace_body (calls.foldl add_value newChecker) L R).v.drop
        (padLen (calls.foldl add_value newChecker) L R)).take
        (rows8 (build_8bit_lookup (calls.foldl add_value newChecker)).1).length)
      = (vals8 (build_8bit_lookup (calls.foldl add_value newChecker)).1).map
          some ∧
      vals8 (build_8bit_lookup (calls.foldl add_value newChecker)).1 =
        (((build_8bit_lookup (calls.foldl add_value newChecker)).1.enum.map
          (fun p => List.replicate (lookups_to_rows p.2) p.1))).flatten ∧
      List.Chain' (· ≤ ·)
        (vals8 (build_8bit_lookup (calls.foldl add_value newChecker)).1) ∧
      (∀ x, x ∈ vals8 (build_8bit_lookup
        (calls.foldl add_value newChecker)).1 ↔ x < 256) ∧
      (∀ i : ℕ, 1 ≤ lookups_to_rows ((build_8bit_lookup
        (calls.foldl add_value newChecker)).1.getD i 0)) := by
  set rc := calls.foldl add_value newChecker with hrc
  have hlen : (build_8bit_lookup rc).1.length = 256 :=
    length_build_8bit_lookup rc
  have henum : (build_8bit_lookup rc).1.enum =
      (build_8bit_lookup rc).1.enumFrom 0 := rfl
  have hmain := vals8_enumFrom (build_8bit_lookup rc).1 0
  rw [hlen] at hmain
  obtain ⟨hchain, hbound, hcover⟩ := hmain
  have hv8 := vals8_eq (build_8bit_lookup rc).1
  rw [henum] at hv8
  refine ⟨?_, by rw [hv8, henum], ?_, ?_, fun i => lookups_to_rows_pos _⟩
  · rw [body_v_eq rc L R hfit, List.append_assoc, List.append_assoc,
      List.drop_left' (by simp), List.take_left' (by simp)]
    rw [vals8]
  · rw [hv8]
    exact hchain
  · intro x
    rw [hv8]
    constructor
    · intro hx
      have := hbound x hx
      omega
    · intro hx
      exact hcover x (by omega) (by omega)

/-- Witness for C6 at the empty checker, `target_len = 1024`,
`num_rand_rows = 1`. -/
theorem claim_C6_witness :
    (((into_trace_body ([].foldl add_value newChecker) 1024 1).v.drop
        (padLen ([].foldl add_value newChecker) 1024 1)).take
        (rows8 (build_8bit_lookup ([].foldl add_value newChecker)).1).length)
      = (vals8 (build_8bit_lookup ([].foldl add_value newChecker)).1).map
          some ∧
      vals8 (build_8bit_lookup ([].foldl add_value newChecker)).1 =
        (((build_8bit_lookup ([].foldl add_value newChecker)).1.enum.map
          (fun p => List.replicate (lookups_to_rows p.2) p.1))).flatten ∧
      List.Chain' (· ≤ ·)
        (vals8 (build_8bit_lookup ([].foldl add_value newChecker)).1) ∧
      (∀ x, x ∈ vals8 (build_8bit_lookup
        ([].foldl add_value newChecker)).1 ↔ x < 256) ∧
      (∀ i : ℕ, 1 ≤ lookups_to_rows ((build_8bit_lookup
        ([].foldl add_value newChecker)).1.getD i 0)) :=
  claim_C6 [] (by intro c hc; simp at hc) 1024 1 (by decide) (by decide)

-- ======================================================================
-- Claim C3: the 8-bit derivation matches the spec algorithm
-- ======================================================================

theorem bump_length (l : List ℕ) (j d : ℕ) :
    (bump l j d).length = l.length := by
  rw [bump, List.length_set]

theorem bump_getD (l : List ℕ) (j d i : ℕ) (hj : j < l.length) :
    (bump l j d).getD i 0 = l.getD i 0 + if i = j then d else 0 := by
  rw [bump, List.getD_eq_getElem?_getD, List.getElem?_set]
  by_cases h : j = i
  · subst h
    rw [if_pos rfl, if_pos hj, if_pos rfl]
    rfl
  · rw [if_neg h, if_neg (fun he : i = j => h he.symm)]
    rw [← List.getD_eq_getElem?_getD]
    omega

theorem build8Step_fst_bumps (prev value c : ℕ) (res : List ℕ) (n : ℕ) :
    (build8Step prev value c res n).1 =
      (if (value - prev) % 255 ≠ 0 then
        bump (if (value - prev) / 255 ≠ 0 then
            bump (bump res 0 (lookups_to_rows c - 1)) 255 ((value - prev) / 255)
          else bump res 0 (lookups_to_rows c - 1))
          ((value - prev) % 255) 1
       else
        (if (value - prev) / 255 ≠ 0 then
            bump (bump res 0 (lookups_to_rows c - 1)) 255 ((value - prev) / 255)
          else bump res 0 (lookups_to_rows c - 1))) := rfl

theorem build8Step_fst_getD (prev value c : ℕ) (res : List ℕ) (n i : ℕ)
    (hlen : res.length = 256) :
    (build8Step prev value c res n).1.getD i 0 =
      res.getD i 0 + spec8Entry prev value c i := by
  have hr : (value - prev) % 255 < 255 := Nat.mod_lt _ (by omega)
  rw [build8Step_fst_bumps]
  rw [spec8Entry]
  by_cases hq : (value - prev) / 255 ≠ 0 <;>
    by_cases hrm : (value - prev) % 255 ≠ 0
  · rw [if_pos hrm, if_pos hq]
    rw [bump_getD _ _ _ _ (by rw [bump_length, bump_length]; omega),
      bump_getD _ _ _ _ (by rw [bump_length]; omega),
      bump_getD _ _ _ _ (by omega)]
    split_ifs <;> omega
  · rw [if_neg hrm, if_pos hq]
    rw [bump_getD _ _ _ _ (by rw [bump_length]; omega),
      bump_getD _ _ _ _ (by omega)]
    split_ifs <;> omega
  · rw [if_pos hrm, if_neg hq]
    rw [bump_getD _ _ _ _ (by rw [bump_length]; omega),
      bump_getD _ _ _ _ (by omega)]
    split_ifs <;> omega
  · rw [if_neg hrm, if_neg hq]
    rw [bump_getD _ _ _ _ (by omega)]
    split_ifs <;> omega

theorem build8Step_snd_spec (prev value c : ℕ) (res : List ℕ) (n : ℕ) :
    (build8Step prev value c res n).2 = n + spec8Rows prev value c := by
  unfold build8Step spec8Rows div_rem
  simp only []
  split_ifs <;> omega

theorem list_eq_range_map_getD (l : List ℕ) (n : ℕ) (h : l.length = n) :
    (List.range n).map (fun i => l.getD i 0) = l := by
  subst h
  apply List.ext_getElem
  · simp
  · intro i h1 h2
    simp only [List.getElem_map, List.getElem_range,
      List.getD_eq_getElem?_getD, List.getElem?_eq_getElem h2]
    rfl

theorem build8Loop_spec (l : Lookups) :
    ∀ (prev : ℕ) (res : List ℕ) (n : ℕ), res.length = 256 →
      (build8Loop prev l res n).1 =
          (List.range 256).map (fun i => res.getD i 0 + (spec8 prev l).1 i) ∧
        (build8Loop prev l res n).2 = n + (spec8 prev l).2 := by
  induction l with
  | nil =>
    intro prev res n hlen
    constructor
    · rw [build8Loop, spec8]
      dsimp only
      have := list_eq_range_map_getD res 256 hlen
      simp only [Nat.add_zero]
      exact this.symm
    · rw [build8Loop, spec8]
      dsimp only
      omega
  | cons p rest ih =>
    intro prev res n hlen
    obtain ⟨value, c⟩ := p
    rw [build8Loop, spec8]
    obtain ⟨ih1, ih2⟩ := ih value (build8Step prev value c res n).1
      (build8Step prev value c res n).2
      (by rw [build8Step_fst_length]; exact hlen)
    constructor
    · rw [ih1]
      apply List.map_congr_left
      intro i hi
      rw [build8Step_fst_getD _ _ _ _ _ _ hlen]
      dsimp only
      omega
    · rw [ih2, build8Step_snd_spec]
      dsimp only
      omega

theorem getD_replicate_zero (n i : ℕ) :
    (List.replicate n (0 : ℕ)).getD i 0 = 0 := by
  rw [List.getD_eq_getElem?_getD, List.getElem?_replicate]
  split <;> rfl

/-- C3.  The 8-bit table derivation matches the spec's algorithm:
`build_8bit_lookup` iterates entries in ascending key order with `prev`
initially 0 and, per entry, adds `lookups_to_rows count` 16-bit rows and
`lookups_to_rows count - 1` to histogram slot 0; then, splitting
`delta = value - prev` as `delta_q * 255 + delta_r`, adds `delta_q` to slot
255 and `delta_q - 1` (if `delta_r = 0`) or `delta_q` extra 16-bit rows when
`delta_q > 0`, and 1 to slot `delta_r` when `delta_r > 0` — stated as
equality with the spec-worded accumulator `spec8`. -/
theorem claim_C3 (rc : Lookups) :
    (build_8bit_lookup rc).1 = (List.range 256).map (spec8 0 rc).1 ∧
      (build_8bit_lookup rc).2 = (spec8 0 rc).2 := by
  obtain ⟨h1, h2⟩ := build8Loop_spec rc 0 (List.replicate 256 0) 0 (by simp)
  rw [build_8bit_lookup]
  constructor
  · rw [h1]
    apply List.map_congr_left
    intro i hi
    rw [getD_replicate_zero]
    omega
  · rw [h2]
    omega

-- ======================================================================
-- Claim C8 (corrected): the random tail and the t column
-- ======================================================================

/-- Counterexample to C8 as stated: with the empty checker,
`target_len = 1024` and `num_rand_rows = 1`, `into_trace` DOES write to the
`t` column of the last row (the `trace[0][i..].fill(ONE)` at line 166 of
`range/mod.rs` runs to the very end of the column), leaving `some 1` there
rather than an untouched cell. -/
theorem claim_C8_cex :
    into_trace newChecker 1024 1 =
        some (into_trace_body newChecker 1024 1) ∧
      (into_trace_body newChecker 1024 1).t[1023]? = some (some 1) := by
  constructor
  · rw [into_trace, if_pos (by decide), if_pos (by decide)]
  · rw [body_t_eq newChecker 1024 1 (by decide)]
    decide

/-- C8 (amended).  For every valid `(target_len, num_rand_rows)` with
`num_rand_rows > 0`, `into_trace` writes nothing to the last
`num_rand_rows` rows of the `s0`, `s1` and `v` columns — those cells stay
uninitialized for the trace assembler — but it does write the `t` column of
every tail row, filling it with 1. -/
theorem claim_C8 (calls : List ℕ) (hcalls : ∀ c ∈ calls, c < 65536)
    (L R : ℕ) (hpow : is_power_of_two L = true)
    (hfit : trace_len (calls.foldl add_value newChecker) + R ≤ L)
    (hR : 0 < R) (j : ℕ) (hj1 : L - R ≤ j) (hj2 : j < L) :
    (into_trace_body (calls.foldl add_value newChecker) L R).s0[j]? =
        some none ∧
      (into_trace_body (calls.foldl add_value newChecker) L R).s1[j]? =
        some none ∧
      (into_trace_body (calls.foldl add_value newChecker) L R).v[j]? =
        some none ∧
      (into_trace_body (calls.foldl add_value newChecker) L R).t[j]? =
        some (some 1) := by
  set rc := calls.foldl add_value newChecker with hrc
  set P := padLen rc L R with hP
  set n8 := (rows8 (build_8bit_lookup rc).1).length with hn8
  set n16 := (rows16 rc).length with hn16
  have harith := padLen_arith rc L R hfit
  rw [← hP, ← hn8, ← hn16] at harith
  refine ⟨?_, ?_, ?_, ?_⟩
  · rw [body_s0_eq rc L R hfit]
    rw [getElem?_append_sized _ _ (P + n8 + n16) j
      (by simp [hn8, hn16]; omega)]
    rw [if_neg (by omega), List.getElem?_replicate, if_pos (by omega)]
  · rw [body_s1_eq rc L R hfit]
    rw [getElem?_append_sized _ _ (P + n8 + n16) j
      (by simp [hn8, hn16]; omega)]
    rw [if_neg (by omega), List.getElem?_replicate, if_pos (by omega)]
  · rw [body_v_eq rc L R hfit]
    rw [getElem?_append_sized _ _ (P + n8 + n16) j
      (by simp [hn8, hn16]; omega)]
    rw [if_neg (by omega), List.getElem?_replicate, if_pos (by omega)]
  · rw [body_t_eq rc L R hfit]
    rw [getElem?_append_sized _ _ (P + n8) j (by simp [hn8])]
    rw [if_neg (by omega), List.getElem?_replicate, if_pos (by omega)]

/-- Witness for the amended C8 at the empty checker, `target_len = 1024`,
`num_rand_rows = 1`, last row 1023. -/
theorem claim_C8_witness :
    (into_trace_body ([].foldl add_value newChecker) 1024 1).s0[1023]? =
        some none ∧
      (into_trace_body ([].foldl add_value newChecker) 1024 1).s1[1023]? =
        some none ∧
      (into_trace_body ([].foldl add_value newChecker) 1024 1).v[1023]? =
        some none ∧
      (into_trace_body ([].foldl add_value newChecker) 1024 1).t[1023]? =
        some (some 1) :=
  claim_C8 [] (by intro c hc; simp at hc) 1024 1 (by decide) (by decide)
    (by decide) 1023 (by decide) (by decide)

-- ======================================================================
-- `is_power_of_two` agrees with the mathematical notion
-- ======================================================================

theorem count_ones_fuel_congr : ∀ f₁ f₂ n : ℕ, n ≤ f₁ → n ≤ f₂ →
    count_ones_fuel f₁ n = count_ones_fuel f₂ n := by
  intro f₁
  induction f₁ with
  | zero =>
    intro f₂ n h₁ h₂
    have : n = 0 := by omega
    subst this
    cases f₂ <;> rfl
  | succ f ih =>
    intro f₂ n h₁ h₂
    cases n with
    | zero => cases f₂ <;> rfl
    | succ m =>
      cases f₂ with
      | zero => omega
      | succ g =>
        rw [count_ones_fuel, count_ones_fuel]
        congr 1
        exact ih g ((m + 1) / 2) (by omega) (by omega)

theorem count_ones_unfold (n : ℕ) :
    count_ones (n + 1) = count_ones ((n + 1) / 2) + (n + 1) % 2 := by
  rw [count_ones, count_ones, count_ones_fuel]
  congr 1
  exact count_ones_fuel_congr n ((n + 1) / 2) ((n + 1) / 2)
    (by omega) (by omega)

theorem count_ones_eq_zero (n : ℕ) : count_ones n = 0 ↔ n = 0 := by
  induction n using Nat.strong_induction_on with
  | _ n ih =>
    cases n with
    | zero => simp [count_ones, count_ones_fuel]
    | succ m =>
      rw [count_ones_unfold]
      constructor
      · intro h
        have h1 : count_ones ((m + 1) / 2) = 0 := by omega
        have := (ih ((m + 1) / 2) (by omega)).mp h1
        omega
      · intro h
        omega

/-- The embedded `usize::is_power_of_two` (`count_ones() == 1`) holds
exactly on the powers of two; in particular 0 is not a power of two. -/
theorem is_power_of_two_iff (n : ℕ) :
    is_power_of_two n = true ↔ ∃ k : ℕ, n = 2 ^ k := by
  rw [is_power_of_two, beq_iff_eq]
  induction n using Nat.strong_induction_on with
  | _ n ih =>
    cases n with
    | zero =>
      constructor
      · intro h
        simp [count_ones, count_ones_fuel] at h
      · rintro ⟨k, hk⟩
        exact absurd hk.symm (Nat.pos_iff_ne_zero.mp (Nat.pos_pow_of_pos k
          (by omega))).elim
    | succ m =>
      rw [count_ones_unfold]
      by_cases hpar : (m + 1) % 2 = 1
      · rw [hpar]
        constructor
        · intro h
          have h1 : count_ones ((m + 1) / 2) = 0 := by omega
          have h2 := (count_ones_eq_zero _).mp h1
          exact ⟨0, by omega⟩
        · rintro ⟨k, hk⟩
          cases k with
          | zero =>
            rw [pow_zero] at hk
            have hm : m = 0 := by omega
            subst hm
            rfl
          | succ k2 =>
            exfalso
            rw [pow_succ] at hk
            omega
      · have hpar0 : (m + 1) % 2 = 0 := by omega
        rw [hpar0, Nat.add_zero]
        rw [ih ((m + 1) / 2) (by omega)]
        constructor
        · rintro ⟨k, hk⟩
          refine ⟨k + 1, ?_⟩
          rw [pow_succ]
          omega
        · rintro ⟨k, hk⟩
          cases k with
          | zero =>
            rw [pow_zero] at hk
            omega
          | succ k2 =>
            refine ⟨k2, ?_⟩
            rw [pow_succ] at hk
            omega

end RangeCheck
